import Mathlib

/-!
Verification of the docker-cron crontab parser (`src/crontab.rs`) and the
per-job scheduling loop (`src/main.rs`).

The crontab line is modelled as a `List Char`.  Rust's `str::char_indices`
yields *byte* offsets, and `&line[a..b]` slices by bytes (panicking on a
non-boundary index), so the embedding tracks byte positions explicitly via
`Char.utf8Size`; a slice that would panic is modelled as `Option.none`.

The external collaborators (the `cron` crate's expression evaluator and the
Docker execution backend) are out of scope per the design document and enter
the embedding only through their interfaces: a parameter
`ev : List Char → Except ε α` standing for `Schedule::from_str`, and small
inductive types for the backend's start / wait responses.
-/

namespace DockerCron

/-- Rust's `char::is_whitespace`: the Unicode `White_Space` property
(U+0009–U+000D, U+0020, U+0085, U+00A0, U+1680, U+2000–U+200A, U+2028,
U+2029, U+202F, U+205F, U+3000). -/
def rustIsWhitespace (c : Char) : Bool :=
  let n := c.toNat
  (decide (0x9 ≤ n) && decide (n ≤ 0xD)) || decide (n = 0x20) ||
  decide (n = 0x85) || decide (n = 0xA0) || decide (n = 0x1680) ||
  (decide (0x2000 ≤ n) && decide (n ≤ 0x200A)) || decide (n = 0x2028) ||
  decide (n = 0x2029) || decide (n = 0x202F) || decide (n = 0x205F) ||
  decide (n = 0x3000)

/-- Decidable equality for `Except`, so that witnesses can evaluate parser
results by `decide`. -/
instance exceptDecEq {ε α : Type} [DecidableEq ε] [DecidableEq α] :
    DecidableEq (Except ε α) := fun x y =>
  match x, y with
  | Except.ok a, Except.ok b =>
      if h : a = b then isTrue (by rw [h])
      else isFalse (by intro hc; cases hc; exact h rfl)
  | Except.error a, Except.error b =>
      if h : a = b then isTrue (by rw [h])
      else isFalse (by intro hc; cases hc; exact h rfl)
  | Except.ok a, Except.error b => isFalse (fun hc => Except.noConfusion hc)
  | Except.error a, Except.ok b => isFalse (fun hc => Except.noConfusion hc)

/-- Total UTF-8 byte length of a character list (Rust `str::len`). -/
def utf8Len (cs : List Char) : Nat :=
  cs.foldr (fun c n => c.utf8Size + n) 0

/-- Byte offset of the `i`-th character (Rust `char_indices` position). -/
def bytePos (cs : List Char) (i : Nat) : Nat :=
  utf8Len (cs.take i)

/-- Rust `str::char_indices` starting from byte offset `b`: each character
paired with its byte offset. -/
def char_indices : List Char → Nat → List (Nat × Char)
  | [], _ => []
  | c :: cs, b => (b, c) :: char_indices cs (b + c.utf8Size)

/-- The body of `RunFinder::next` (src/crontab.rs lines 16–43), iterated to
exhaustion.  The state `none` means "scanning for the start of a whitespace
run"; `some (start, last)` means "inside a run that began at byte `start`,
whose most recent whitespace character sat at byte `last`".  On end of input
inside a run the Rust code returns `(start, last_idx + 1)`. -/
def runsAux : List (Nat × Char) → Option (Nat × Nat) → List (Nat × Nat)
  | [], none => []
  | [], some (s, last) => [(s, last + 1)]
  | (b, c) :: rest, none =>
      if rustIsWhitespace c then runsAux rest (some (b, b))
      else runsAux rest none
  | (b, c) :: rest, some (s, _) =>
      if rustIsWhitespace c then runsAux rest (some (s, b))
      else (s, b) :: runsAux rest none

/-- `find_whitespace_runs` (src/crontab.rs lines 45–49): all whitespace runs
of the line, as byte-offset pairs, in the order the iterator yields them. -/
def find_whitespace_runs (cs : List Char) : List (Nat × Nat) :=
  runsAux (char_indices cs 0) none

/-- Rust `&line[..n]`: the characters occupying the first `n` bytes, or
`none` when `n` overruns the line or falls inside a character (Rust panics
there). -/
def takeBytes : List Char → Nat → Option (List Char)
  | _, 0 => some []
  | [], _ + 1 => none
  | c :: cs, n + 1 =>
      if c.utf8Size ≤ n + 1 then
        match takeBytes cs (n + 1 - c.utf8Size) with
        | some r => some (c :: r)
        | none => none
      else none

/-- Rust `&line[n..]`: the characters after the first `n` bytes, or `none`
when `n` overruns the line or falls inside a character (Rust panics there). -/
def dropBytes : List Char → Nat → Option (List Char)
  | cs, 0 => some cs
  | [], _ + 1 => none
  | c :: cs, n + 1 =>
      if c.utf8Size ≤ n + 1 then dropBytes cs (n + 1 - c.utf8Size)
      else none

/-- Rust `str::trim`: strip leading and trailing Unicode whitespace. -/
def trimChars (cs : List Char) : List Char :=
  ((cs.dropWhile rustIsWhitespace).reverse.dropWhile rustIsWhitespace).reverse

/-- `InvalidFormatError` (src/crontab.rs lines 51–55): a format error whose
optional `source` is the evaluator's rejection, `none` when the line simply
lacked the required whitespace run. -/
structure InvalidFormatError (ε : Type) where
  source : Option ε
deriving DecidableEq, Repr

/-- `CronJob` (src/crontab.rs lines 57–60), with the `cron::Schedule` type
abstracted to `α` since the expression evaluator is an external collaborator. -/
structure CronJob (α : Type) where
  schedule : α
  command : List Char
deriving DecidableEq, Repr

/-- The 0-indexed whitespace run at which `CronJob::from_str` splits the
line: run 0 for an `@alias` line, run 5 for a six-field line. -/
def split_run_index (line : List Char) : Nat :=
  if line.head? = some '@' then 0 else 5

/-- `CronJob::from_str` (src/crontab.rs lines 65–89), parameterised by the
external evaluator `ev` standing for `cron::Schedule::from_str`.  The outer
`Option` models panic: `none` is the case where a byte slice taken at a run
boundary falls inside a multibyte character. -/
def CronJob.from_str (ev : List Char → Except ε α) (line : List Char) :
    Option (Except (InvalidFormatError ε) (CronJob α)) :=
  let runs := find_whitespace_runs line
  let brk := if line.head? = some '@' then runs[0]? else runs[5]?
  match brk with
  | none => some (Except.error ⟨none⟩)
  | some (specEnd, commandStart) =>
      match takeBytes line specEnd, dropBytes line commandStart with
      | some spec, some command =>
          some (match ev spec with
            | Except.error e => Except.error ⟨some e⟩
            | Except.ok sched => Except.ok ⟨sched, command⟩)
      | _, _ => none

/-- `CronTabError::InvalidFormat` (src/crontab.rs lines 92–109).  The
`IoError` variant belongs to `load_crontab`'s filesystem wrapper, which does
I/O and is not embedded; `read_crontab` only ever produces this variant. -/
inductive CronTabError (ε : Type) where
  | invalidFormat (line_no : Nat) (source : InvalidFormatError ε)
deriving DecidableEq, Repr

/-- The skip test of `read_crontab` (src/crontab.rs line 117) applied to a
raw physical line: after trimming, the line is empty or starts with `#`. -/
def skipLine (l : List Char) : Bool :=
  (trimChars l).isEmpty || (trimChars l).head? == some '#'

/-- Rust `file.split("\n")` at character level: the segments between newline
characters, keeping empty segments (so a trailing newline yields a final
empty line, exactly as in Rust). -/
def split_newlines : List Char → List (List Char)
  | [] => [[]]
  | c :: cs =>
      if c = '\n' then [] :: split_newlines cs
      else
        match split_newlines cs with
        | [] => [[c]]
        | l :: ls => (c :: l) :: ls

/-- The enumerated loop of `read_crontab` (src/crontab.rs lines 111–130)
over the already-split lines, carrying the 0-based index of the first line.
`none` propagates a panic from `CronJob::from_str`. -/
def read_crontab_aux (ev : List Char → Except ε α) :
    Nat → List (List Char) → Option (Except (CronTabError ε) (List (CronJob α)))
  | _, [] => some (Except.ok [])
  | idx, l :: ls =>
      if skipLine l then read_crontab_aux ev (idx + 1) ls
      else
        match CronJob.from_str ev (trimChars l) with
        | none => none
        | some (Except.error e) =>
            some (Except.error (CronTabError.invalidFormat (idx + 1) e))
        | some (Except.ok job) =>
            match read_crontab_aux ev (idx + 1) ls with
            | none => none
            | some (Except.error err) => some (Except.error err)
            | some (Except.ok jobs) => some (Except.ok (job :: jobs))

/-- `read_crontab` (src/crontab.rs lines 111–130): split the file text on
newlines and fold the per-line loop from index 0. -/
def read_crontab (ev : List Char → Except ε α) (file : List Char) :
    Option (Except (CronTabError ε) (List (CronJob α))) :=
  read_crontab_aux ev 0 (split_newlines file)

/-- Modelled from the spec: the external `cron` crate's `Schedule` value is
out of scope; per §3 it is queried only through "given a reference instant,
produce the earliest matching instant strictly after it".  Instants are
nanoseconds since the epoch (chrono's resolution). -/
structure Schedule where
  nextAfter : Nat → Nat

/-- `dt.num_milliseconds()` as used on src/main.rs lines 35–36: the sleep
duration `next - now`, truncated to whole milliseconds (instants are in
nanoseconds; chrono truncates toward zero, which is floor for the
non-negative difference produced by `Schedule::after`). -/
def dt_millis (next now : Nat) : Nat :=
  (next - now) / 1000000

/-- Modelled from the spec: result of the backend's `start_container` call
(§6), which the loop at src/main.rs lines 44–52 only inspects for success
or an error. -/
inductive StartResult where
  | ok
  | err (e : String)
deriving DecidableEq, Repr

/-- Modelled from the spec: result of awaiting `wait_container` (§6):
`none` when the response stream ends without a result, a normal exit, the
structured `DockerContainerWaitError` carrying a message and a status code,
or any other backend error held opaquely. -/
inductive WaitResult where
  | none
  | okExit
  | containerWaitError (msg : String) (code : Int)
  | otherError (e : String)
deriving DecidableEq, Repr

/-- One observational report (a `warn!`/`debug!` line) emitted by the loop
body of `schedule_job` (src/main.rs lines 48–79). -/
inductive JobReport where
  | startFailed (e : String)
  | noResponse
  | successExit
  | jobFailed (code : Int)
  | waitErrorMessage (msg : String)
  | opaqueWaitError (e : String)
deriving DecidableEq, Repr

/-- The `match result` classification of the wait outcome
(src/main.rs lines 61–79). -/
def classify_wait : WaitResult → JobReport
  | WaitResult.none => JobReport.noResponse
  | WaitResult.okExit => JobReport.successExit
  | WaitResult.containerWaitError msg code =>
      if msg.isEmpty then JobReport.jobFailed code
      else JobReport.waitErrorMessage msg
  | WaitResult.otherError e => JobReport.opaqueWaitError e

/-- The §4.4 state of one `schedule_job` loop: at the top of the loop
(Idle), sleeping until the computed instant (Waiting), or performing the
start / await sequence (Firing). -/
inductive JobState where
  | idle
  | waiting (next : Nat)
  | firing
deriving DecidableEq, Repr

/-- External inputs one pass through the loop body consumes: the wall clock
read at the top of the loop and the backend's responses. -/
structure JobEnv where
  now : Nat
  startResult : StartResult
  waitResult : WaitResult

/-- One transition of the `schedule_job` loop (src/main.rs lines 32–80).
Idle computes `next = schedule.after(now)` and moves to Waiting; Waiting
wakes into Firing; Firing either fails to start (report, back to Idle via
`continue`) or starts, awaits, classifies the wait result and falls to the
bottom of the loop body, i.e. back to Idle.  Every state has a successor:
the Rust `loop` has no `break` or `return`. -/
def schedule_job_step (sched : Schedule) (st : JobState) (env : JobEnv) :
    JobState × Option JobReport :=
  match st with
  | JobState.idle => (JobState.waiting (sched.nextAfter env.now), none)
  | JobState.waiting _ => (JobState.firing, none)
  | JobState.firing =>
      match env.startResult with
      | StartResult.err e => (JobState.idle, some (JobReport.startFailed e))
      | StartResult.ok => (JobState.idle, some (classify_wait env.waitResult))

/-- Specification-level description of one maximal whitespace run: the
characters `i..j` (inclusive) are whitespace, the character before `i` (if
any) and the one after `j` (if any) are not, the reported start is the byte
offset of character `i`, and the reported end is either the byte offset of
the character after the run or — when the run reaches end of input — the
byte offset of its last character plus one. -/
def RunShape (cs : List Char) (p : Nat × Nat) : Prop :=
  ∃ i j, i ≤ j ∧ j < cs.length ∧
    p.1 = bytePos cs i ∧
    (∀ t, i ≤ t → t ≤ j → rustIsWhitespace (cs.getD t 'x') = true) ∧
    (i = 0 ∨ rustIsWhitespace (cs.getD (i - 1) 'x') = false) ∧
    ((j + 1 < cs.length ∧ rustIsWhitespace (cs.getD (j + 1) 'x') = false ∧
        p.2 = bytePos cs (j + 1)) ∨
      (j + 1 = cs.length ∧ p.2 = bytePos cs j + 1))

/-- Identity evaluator used by concrete witnesses: accepts every schedule
text and returns it unchanged. -/
def evalOk : List Char → Except String (List Char) :=
  fun s => Except.ok s

/-- Always-rejecting evaluator used by concrete witnesses. -/
def evalReject : List Char → Except Nat Unit :=
  fun _ => Except.error 7

/-- Concrete schedule used by scheduling-loop witnesses. -/
def sched0 : Schedule :=
  ⟨fun t => t + 60⟩

/-- Concrete loop environment with a successful start and an empty wait
stream. -/
def env0 : JobEnv :=
  ⟨0, StartResult.ok, WaitResult.none⟩

/-- Concrete loop environment whose start call fails. -/
def envFail : JobEnv :=
  ⟨5, StartResult.err ("boom"), WaitResult.okExit⟩

/-- Expected loader output per §4.3 of the design: one parsed job for every
physical line that is neither blank nor a comment after trimming, in file
order.  (Spec-side description; compared against `read_crontab` below.) -/
def parsedJobs (ev : List Char → Except ε α) (ls : List (List Char)) :
    List (CronJob α) :=
  ls.filterMap (fun l =>
    if skipLine l then none
    else
      match CronJob.from_str ev (trimChars l) with
      | some (Except.ok j) => some j
      | _ => none)

/-- Decidable test that a physical line, once trimmed, parses into a job
(used to state loader hypotheses in a form a witness can evaluate). -/
def parseOk (ev : List Char → Except ε α) (l : List Char) : Bool :=
  match CronJob.from_str ev (trimChars l) with
  | some (Except.ok _) => true
  | _ => false

/-- Sanity check mirroring the repository's `test_whitespace_runs`. -/
example :
    find_whitespace_runs (("  a bb   c   ").toList) =
      [(0, 2), (3, 4), (6, 9), (10, 13)] := by decide

example :
    find_whitespace_runs (("a b").toList) = [(1, 2)] := by decide

example : find_whitespace_runs (("abc").toList) = [] := by decide

/-- Sanity check: the multibyte trailing-whitespace quirk.  The line
`"a" ++ U+00A0` is 3 bytes long but the final run is reported as `(1, 2)`. -/
example :
    find_whitespace_runs (("a\u00A0").toList) = [(1, 2)] ∧
      utf8Len (("a\u00A0").toList) = 3 := by decide

/-! ### Byte-position infrastructure -/

theorem utf8Len_nil : utf8Len [] = 0 := rfl

theorem utf8Len_cons (c : Char) (cs : List Char) :
    utf8Len (c :: cs) = c.utf8Size + utf8Len cs := rfl

theorem utf8Len_append (l₁ l₂ : List Char) :
    utf8Len (l₁ ++ l₂) = utf8Len l₁ + utf8Len l₂ := by
  induction l₁ with
  | nil => simp [utf8Len_nil]
  | cons c cs ih => simp [utf8Len_cons, ih]; omega

theorem utf8Len_pos {cs : List Char} (h : cs ≠ []) : 0 < utf8Len cs := by
  cases cs with
  | nil => exact absurd rfl h
  | cons c cs =>
    have := c.utf8Size_pos
    simp [utf8Len_cons]
    omega

theorem bytePos_zero (cs : List Char) : bytePos cs 0 = 0 := rfl

theorem bytePos_cons_succ (c : Char) (cs : List Char) (k : Nat) :
    bytePos (c :: cs) (k + 1) = c.utf8Size + bytePos cs k := by
  simp [bytePos, List.take_succ_cons, utf8Len_cons]

theorem bytePos_length (cs : List Char) : bytePos cs cs.length = utf8Len cs := by
  simp [bytePos]

theorem bytePos_succ (cs : List Char) (i : Nat) (h : i < cs.length) :
    bytePos cs (i + 1) = bytePos cs i + (cs.getD i 'x').utf8Size := by
  have ht : cs.take (i + 1) = cs.take i ++ [cs.getD i 'x'] := by
    rw [List.take_succ]
    have : cs[i]? = some (cs.getD i 'x') := by
      rw [List.getD_eq_getElem cs 'x' h, List.getElem?_eq_getElem h]
    rw [this]
    rfl
  simp [bytePos, ht, utf8Len_append, utf8Len_cons, utf8Len_nil]

theorem bytePos_lt (cs : List Char) {i j : Nat} (hij : i < j) (hj : j ≤ cs.length) :
    bytePos cs i < bytePos cs j := by
  induction j with
  | zero => omega
  | succ j ih =>
    have hjlen : j < cs.length := by omega
    rw [bytePos_succ cs j hjlen]
    have hpos := (cs.getD j 'x').utf8Size_pos
    rcases Nat.lt_or_ge i j with h | h
    · have := ih h (by omega)
      omega
    · have : i = j := by omega
      subst this
      omega

theorem bytePos_le (cs : List Char) {i j : Nat} (hij : i ≤ j) :
    bytePos cs i ≤ bytePos cs j := by
  have : cs.take i = (cs.take j).take i := by
    rw [List.take_take]
    congr 1
    omega
  have hdec : utf8Len (cs.take j) =
      utf8Len ((cs.take j).take i) + utf8Len ((cs.take j).drop i) := by
    rw [← utf8Len_append, List.take_append_drop]
  simp only [bytePos]
  rw [this]
  omega

theorem bytePos_inj (cs : List Char) {i j : Nat} (hi : i ≤ cs.length)
    (hj : j ≤ cs.length) (h : bytePos cs i = bytePos cs j) : i = j := by
  rcases Nat.lt_trichotomy i j with hlt | heq | hgt
  · exact absurd h (Nat.ne_of_lt (bytePos_lt cs hlt hj))
  · exact heq
  · exact absurd h.symm (Nat.ne_of_lt (bytePos_lt cs hgt hi))

/-! ### Byte slicing lemmas -/

theorem takeBytes_bytePos (cs : List Char) (k : Nat) :
    takeBytes cs (bytePos cs k) = some (cs.take k) := by
  induction cs generalizing k with
  | nil => simp [bytePos, utf8Len_nil, takeBytes]
  | cons c cs ih =>
    cases k with
    | zero => simp [bytePos_zero, takeBytes]
    | succ k =>
      rw [bytePos_cons_succ]
      have hpos := c.utf8Size_pos
      have hform : c.utf8Size + bytePos cs k = (c.utf8Size + bytePos cs k - 1) + 1 := by
        omega
      rw [hform]
      simp only [takeBytes]
      have hle : c.utf8Size ≤ c.utf8Size + bytePos cs k - 1 + 1 := by omega
      rw [if_pos hle]
      have harg : c.utf8Size + bytePos cs k - 1 + 1 - c.utf8Size = bytePos cs k := by
        omega
      rw [harg, ih k]
      simp

theorem dropBytes_bytePos (cs : List Char) (k : Nat) :
    dropBytes cs (bytePos cs k) = some (cs.drop k) := by
  induction cs generalizing k with
  | nil => simp [bytePos, utf8Len_nil, dropBytes]
  | cons c cs ih =>
    cases k with
    | zero => simp [bytePos_zero, dropBytes]
    | succ k =>
      rw [bytePos_cons_succ]
      have hpos := c.utf8Size_pos
      have hform : c.utf8Size + bytePos cs k = (c.utf8Size + bytePos cs k - 1) + 1 := by
        omega
      rw [hform]
      simp only [dropBytes]
      have hle : c.utf8Size ≤ c.utf8Size + bytePos cs k - 1 + 1 := by omega
      rw [if_pos hle]
      have harg : c.utf8Size + bytePos cs k - 1 + 1 - c.utf8Size = bytePos cs k := by
        omega
      rw [harg, ih k]
      simp [List.drop_succ_cons]

theorem takeBytes_some (cs : List Char) (n : Nat) (r : List Char)
    (h : takeBytes cs n = some r) :
    ∃ k, k ≤ cs.length ∧ r = cs.take k ∧ n = bytePos cs k := by
  induction cs generalizing n r with
  | nil =>
    cases n with
    | zero =>
      simp [takeBytes] at h
      exact ⟨0, by simp, by simp [h.symm], rfl⟩
    | succ n => simp [takeBytes] at h
  | cons c cs ih =>
    cases n with
    | zero =>
      simp [takeBytes] at h
      exact ⟨0, by simp, by simp [h.symm], rfl⟩
    | succ n =>
      simp only [takeBytes] at h
      by_cases hle : c.utf8Size ≤ n + 1
      · rw [if_pos hle] at h
        cases hrec : takeBytes cs (n + 1 - c.utf8Size) with
        | none => rw [hrec] at h; simp at h
        | some r' =>
          rw [hrec] at h
          simp at h
          obtain ⟨k, hk, hr', hn⟩ := ih (n + 1 - c.utf8Size) r' hrec
          refine ⟨k + 1, by simp; omega, ?_, ?_⟩
          · simp [List.take_succ_cons, ← h, hr']
          · rw [bytePos_cons_succ]
            omega
      · rw [if_neg hle] at h
        simp at h

theorem dropBytes_some (cs : List Char) (n : Nat) (r : List Char)
    (h : dropBytes cs n = some r) :
    ∃ k, k ≤ cs.length ∧ r = cs.drop k ∧ n = bytePos cs k := by
  induction cs generalizing n r with
  | nil =>
    cases n with
    | zero =>
      simp [dropBytes] at h
      exact ⟨0, by simp, by simp [h.symm], rfl⟩
    | succ n => simp [dropBytes] at h
  | cons c cs ih =>
    cases n with
    | zero =>
      simp [dropBytes] at h
      exact ⟨0, by simp, by simp [h.symm], rfl⟩
    | succ n =>
      simp only [dropBytes] at h
      by_cases hle : c.utf8Size ≤ n + 1
      · rw [if_pos hle] at h
        obtain ⟨k, hk, hr, hn⟩ := ih (n + 1 - c.utf8Size) r h
        refine ⟨k + 1, by simp; omega, ?_, ?_⟩
        · simp [List.drop_succ_cons, hr]
        · rw [bytePos_cons_succ]
          omega
      · rw [if_neg hle] at h
        simp at h

/-! ### Soundness of the run scanner -/

theorem drop_eq_getD_cons {L : List Char} {i : Nat} (h : i < L.length) :
    L.drop i = L.getD i 'x' :: L.drop (i + 1) := by
  rw [List.getD_eq_getElem L 'x' h]
  exact List.drop_eq_getElem_cons h

theorem char_indices_drop (L : List Char) (i : Nat) (h : i < L.length) :
    char_indices (L.drop i) (bytePos L i) =
      (bytePos L i, L.getD i 'x') ::
        char_indices (L.drop (i + 1)) (bytePos L (i + 1)) := by
  rw [drop_eq_getD_cons h]
  simp only [char_indices]
  rw [← bytePos_succ L i h]

/-- Generalized invariant proof: every pair emitted by the `RunFinder`
iteration, resumed at character `i` with pending state `st`, has the shape
of a maximal whitespace run of the full line.  The state invariants mirror
what `RunFinder::next` guarantees between its loop iterations. -/
theorem runsAux_sound (L : List Char) :
    ∀ n i st,
      L.length - i = n → i ≤ L.length →
      (st = none → (i = 0 ∨ rustIsWhitespace (L.getD (i - 1) 'x') = false)) →
      (∀ s last, st = some (s, last) →
        ∃ i0, i0 < i ∧ s = bytePos L i0 ∧ last = bytePos L (i - 1) ∧
          (∀ t, i0 ≤ t → t < i → rustIsWhitespace (L.getD t 'x') = true) ∧
          (i0 = 0 ∨ rustIsWhitespace (L.getD (i0 - 1) 'x') = false)) →
      ∀ p, p ∈ runsAux (char_indices (L.drop i) (bytePos L i)) st →
        RunShape L p := by
  intro n
  induction n with
  | zero =>
    intro i st hn hile hnone hsome p hp
    have hieq : i = L.length := by omega
    subst hieq
    rw [List.drop_length] at hp
    cases st with
    | none => simp [char_indices, runsAux] at hp
    | some pr =>
      obtain ⟨s, last⟩ := pr
      simp only [char_indices, runsAux, List.mem_singleton] at hp
      obtain ⟨i0, hi0, hs, hlast, hws, hleft⟩ := hsome s last rfl
      subst hp
      refine ⟨i0, L.length - 1, by omega, by omega, hs, ?_, hleft,
        Or.inr ⟨by omega, ?_⟩⟩
      · intro t ht1 ht2
        exact hws t ht1 (by omega)
      · simpa using hlast
  | succ n ih =>
    intro i st hn hile hnone hsome p hp
    have hi : i < L.length := by omega
    rw [char_indices_drop L i hi] at hp
    by_cases hw : rustIsWhitespace (L.getD i 'x') = true
    · cases st with
      | none =>
        simp only [runsAux, hw, if_true] at hp
        refine ih (i + 1) (some (bytePos L i, bytePos L i)) (by omega)
          (by omega) (by intro h; simp at h) ?_ p hp
        intro s last heq
        injection heq with heq
        injection heq with h1 h2
        refine ⟨i, by omega, h1.symm, by simpa using h2.symm, ?_, ?_⟩
        · intro t ht1 ht2
          have : t = i := by omega
          subst this
          exact hw
        · exact hnone rfl
      | some pr =>
        obtain ⟨s, last⟩ := pr
        simp only [runsAux, hw, if_true] at hp
        obtain ⟨i0, hi0, hs, hlast, hws, hleft⟩ := hsome s last rfl
        refine ih (i + 1) (some (s, bytePos L i)) (by omega) (by omega)
          (by intro h; simp at h) ?_ p hp
        intro s' last' heq
        injection heq with heq
        injection heq with h1 h2
        refine ⟨i0, by omega, h1 ▸ hs, by simpa using h2.symm, ?_, hleft⟩
        intro t ht1 ht2
        rcases Nat.lt_or_ge t i with h | h
        · exact hws t ht1 h
        · have : t = i := by omega
          subst this
          exact hw
    · rw [Bool.not_eq_true] at hw
      cases st with
      | none =>
        simp only [runsAux, hw, Bool.false_eq_true, if_false] at hp
        refine ih (i + 1) none (by omega) (by omega) ?_
          (by intro s last h; simp at h) p hp
        intro _
        right
        simpa using hw
      | some pr =>
        obtain ⟨s, last⟩ := pr
        simp only [runsAux, hw, Bool.false_eq_true, if_false,
          List.mem_cons] at hp
        obtain ⟨i0, hi0, hs, hlast, hws, hleft⟩ := hsome s last rfl
        rcases hp with hp | hp
        · subst hp
          have hi1 : 1 ≤ i := by omega
          refine ⟨i0, i - 1, by omega, by omega, hs, ?_, hleft, Or.inl ⟨?_, ?_, ?_⟩⟩
          · intro t ht1 ht2
            exact hws t ht1 (by omega)
          · omega
          · have : i - 1 + 1 = i := by omega
            rw [this]
            exact hw
          · have : i - 1 + 1 = i := by omega
            rw [this]
        · refine ih (i + 1) none (by omega) (by omega) ?_
            (by intro s' last' h; simp at h) p hp
          intro _
          right
          simpa using hw

/-- Every pair yielded by `find_whitespace_runs` is a maximal whitespace
run of the line (with the end-of-input convention recorded in `RunShape`). -/
theorem find_whitespace_runs_sound (cs : List Char) :
    ∀ p ∈ find_whitespace_runs cs, RunShape cs p := by
  intro p hp
  have h0 : cs.drop 0 = cs := List.drop_zero cs
  refine runsAux_sound cs cs.length 0 none (by omega) (by omega)
    (fun _ => Or.inl rfl) (by intro s last h; simp at h) p ?_
  rw [h0, bytePos_zero]
  exact hp

/-! ### Anatomy of a successful parse -/

theorem brk_index (line : List Char) :
    (if line.head? = some '@' then (find_whitespace_runs line)[0]?
     else (find_whitespace_runs line)[5]?) =
      (find_whitespace_runs line)[split_run_index line]? := by
  unfold split_run_index
  by_cases h : line.head? = some '@' <;> simp [h]

theorem take_getLast? (L : List Char) (k : Nat) (hk : 0 < k)
    (hkl : k ≤ L.length) :
    (L.take k).getLast? = some (L.getD (k - 1) 'x') := by
  rw [List.getLast?_eq_getElem?]
  have hlen : (L.take k).length = k := List.length_take_of_le hkl
  rw [hlen, List.getElem?_take_of_lt (by omega)]
  have hlt : k - 1 < L.length := by omega
  rw [List.getElem?_eq_getElem hlt, List.getD_eq_getElem L 'x' hlt]

/-- Anatomy of every line `CronJob::from_str` accepts: the indexed
whitespace run `(s, e)` exists, the schedule text is exactly the bytes
before `s`, the command is exactly the bytes from `e` on (hence verbatim,
whitespace included), the separator between them is a nonempty all-whitespace
chunk, the schedule text does not end in whitespace nor the command begin
with one (maximality of the run), and the evaluator accepted the schedule
text. -/
theorem from_str_ok_split (ev : List Char → Except ε α) (line : List Char)
    (job : CronJob α)
    (h : CronJob.from_str ev line = some (Except.ok job)) :
    ∃ s e spec mid,
      (find_whitespace_runs line)[split_run_index line]? = some (s, e) ∧
      takeBytes line s = some spec ∧
      dropBytes line e = some job.command ∧
      line = spec ++ mid ++ job.command ∧
      utf8Len spec = s ∧ s + utf8Len mid = e ∧ mid ≠ [] ∧
      (∀ c ∈ mid, rustIsWhitespace c = true) ∧
      (spec = [] ∨ ∃ c, spec.getLast? = some c ∧ rustIsWhitespace c = false) ∧
      (job.command = [] ∨
        ∃ c, job.command.head? = some c ∧ rustIsWhitespace c = false) ∧
      ev spec = Except.ok job.schedule := by
  obtain ⟨sched, cmd⟩ := job
  simp only [CronJob.from_str] at h
  rw [brk_index] at h
  split at h
  · simp at h
  · rename_i s e hbrk
    split at h
    · rename_i spec cmd' htk hdp
      split at h
      · simp at h
      · rename_i sched' hev
        simp only [Option.some.injEq, Except.ok.injEq, CronJob.mk.injEq] at h
        obtain ⟨hsched, hcmd'⟩ := h
        subst hsched
        subst hcmd'
        have hmem : (s, e) ∈ find_whitespace_runs line :=
          List.mem_iff_getElem?.mpr ⟨_, hbrk⟩
        obtain ⟨i0, j, hij, hjlen, hs, hws, hleft, hright⟩ :=
          find_whitespace_runs_sound line (s, e) hmem
        have hs' : s = bytePos line i0 := hs
        have hspec : spec = line.take i0 := by
          have ht := takeBytes_bytePos line i0
          rw [← hs'] at ht
          rw [htk] at ht
          exact Option.some.inj ht
        obtain ⟨k, hk, hcmdk, hek⟩ := dropBytes_some line e cmd' hdp
        have hkj : k = j + 1 ∧ e = bytePos line (j + 1) := by
          rcases hright with ⟨hjlt, _, he⟩ | ⟨hjend, he⟩
          · have he' : e = bytePos line (j + 1) := he
            refine ⟨bytePos_inj line hk (by omega) ?_, he'⟩
            rw [← hek, he']
          · have he' : e = bytePos line j + 1 := he
            have hbj := bytePos_le line (show j ≤ j by omega)
            have hkgt : j < k := by
              by_contra hcon
              have hle : k ≤ j := by omega
              have := bytePos_le line hle
              omega
            have hkeq : k = j + 1 := by omega
            exact ⟨hkeq, by rw [← hkeq, ← hek]⟩
        obtain ⟨hkeq, he⟩ := hkj
        subst hkeq
        have hcmd : cmd' = line.drop (j + 1) := hcmdk
        have hsplit : line.take i0 ++ (line.take (j + 1)).drop i0 =
            line.take (j + 1) := by
          have := List.take_append_drop i0 (line.take (j + 1))
          rwa [List.take_take, Nat.min_eq_left (by omega)] at this
        refine ⟨s, e, spec, (line.take (j + 1)).drop i0, hbrk, htk, hdp,
          ?_, ?_, ?_, ?_, ?_, ?_, ?_, hev⟩
        · calc line = line.take (j + 1) ++ line.drop (j + 1) :=
                (List.take_append_drop (j + 1) line).symm
            _ = (line.take i0 ++ (line.take (j + 1)).drop i0) ++
                line.drop (j + 1) := by rw [hsplit]
            _ = spec ++ (line.take (j + 1)).drop i0 ++ cmd' := by
                rw [hspec, hcmd]
        · rw [hspec]
          exact hs'.symm
        · have h2 : utf8Len (line.take i0) +
              utf8Len ((line.take (j + 1)).drop i0) =
              utf8Len (line.take (j + 1)) := by
            rw [← utf8Len_append, hsplit]
          have h3 : utf8Len (line.take i0) = s := hs'.symm
          have h4 : utf8Len (line.take (j + 1)) = e := he.symm
          omega
        · intro hnil
          have := congrArg List.length hnil
          simp only [List.length_drop, List.length_take, List.length_nil]
            at this
          omega
        · intro c hc
          rw [List.mem_iff_getElem] at hc
          obtain ⟨u, hu, hcu⟩ := hc
          have hulen : u < j + 1 - i0 := by
            simp only [List.length_drop, List.length_take] at hu
            omega
          have hsome : ((line.take (j + 1)).drop i0)[u]? = some c := by
            rw [List.getElem?_eq_getElem hu, hcu]
          have hline : (line)[i0 + u]? = some c := by
            rw [← List.getElem?_take_of_lt (show i0 + u < j + 1 by omega)]
            rw [← List.getElem?_drop (line.take (j + 1)) i0 u]
            exact hsome
          have hlt : i0 + u < line.length := by omega
          have hgd : line.getD (i0 + u) 'x' = c := by
            rw [List.getD_eq_getElem line 'x' hlt]
            exact Option.some.inj
              ((List.getElem?_eq_getElem hlt).symm.trans hline)
          rw [← hgd]
          exact hws (i0 + u) (by omega) (by omega)
        · rcases Nat.eq_zero_or_pos i0 with h0 | h0
          · left
            rw [hspec, h0]
            rfl
          · right
            refine ⟨line.getD (i0 - 1) 'x', ?_, ?_⟩
            · rw [hspec]
              exact take_getLast? line i0 h0 (by omega)
            · rcases hleft with hz | hnw
              · omega
              · exact hnw
        · rcases hright with ⟨hjlt, hwj, _⟩ | ⟨hjend, _⟩
          · right
            refine ⟨line.getD (j + 1) 'x', ?_, hwj⟩
            rw [hcmd, List.head?_drop, List.getElem?_eq_getElem hjlt,
              List.getD_eq_getElem line 'x' hjlt]
          · left
            rw [hcmd, hjend, List.drop_length]
    · rename_i hne
      simp at h

/-! ### Trimming -/

theorem trimChars_head (cs : List Char) (c : Char)
    (h : (trimChars cs).head? = some c) : rustIsWhitespace c = false := by
  unfold trimChars at h
  rw [List.head?_reverse] at h
  have hx : ((cs.dropWhile rustIsWhitespace).reverse).getLast? = some c := by
    have happ := List.takeWhile_append_dropWhile (p := rustIsWhitespace)
      (l := (cs.dropWhile rustIsWhitespace).reverse)
    calc ((cs.dropWhile rustIsWhitespace).reverse).getLast?
        = ((((cs.dropWhile rustIsWhitespace).reverse).takeWhile
              rustIsWhitespace) ++
            (((cs.dropWhile rustIsWhitespace).reverse).dropWhile
              rustIsWhitespace)).getLast? := by rw [happ]
      _ = some c := by rw [List.getLast?_append, h]; rfl
  rw [List.getLast?_reverse] at hx
  have hnot := List.head?_dropWhile_not rustIsWhitespace cs
  rw [hx] at hnot
  exact hnot

theorem trimChars_getLast (cs : List Char) (c : Char)
    (h : (trimChars cs).getLast? = some c) : rustIsWhitespace c = false := by
  unfold trimChars at h
  rw [List.getLast?_reverse] at h
  have hnot := List.head?_dropWhile_not rustIsWhitespace
    ((cs.dropWhile rustIsWhitespace).reverse)
  rw [h] at hnot
  exact hnot

/-! ### Loader lemmas -/

theorem read_crontab_aux_all_ok (ev : List Char → Except ε α) :
    ∀ (ls : List (List Char)) (idx : Nat),
      (∀ l ∈ ls, skipLine l = false →
        ∃ j, CronJob.from_str ev (trimChars l) = some (Except.ok j)) →
      read_crontab_aux ev idx ls = some (Except.ok (parsedJobs ev ls)) := by
  intro ls
  induction ls with
  | nil => intro idx _; rfl
  | cons l ls ih =>
    intro idx hall
    have hrec := ih (idx + 1) (fun l' hl' => hall l' (List.mem_cons_of_mem l hl'))
    by_cases hskip : skipLine l
    · simp [read_crontab_aux, hskip, hrec, parsedJobs, List.filterMap_cons]
    · have hskip' : skipLine l = false := by simpa using hskip
      obtain ⟨j, hj⟩ := hall l (List.mem_cons_self l ls) hskip'
      simp [read_crontab_aux, hskip', hj, hrec, parsedJobs,
        List.filterMap_cons]

theorem parsedJobs_length (ev : List Char → Except ε α) :
    ∀ ls : List (List Char),
      (∀ l ∈ ls, skipLine l = false →
        ∃ j, CronJob.from_str ev (trimChars l) = some (Except.ok j)) →
      (parsedJobs ev ls).length =
        (ls.filter (fun l => !skipLine l)).length := by
  intro ls
  induction ls with
  | nil => intro _; rfl
  | cons l ls ih =>
    intro hall
    have hrec := ih (fun l' hl' => hall l' (List.mem_cons_of_mem l hl'))
    by_cases hskip : skipLine l
    · simp only [parsedJobs, List.filterMap_cons, hskip, if_true,
        List.filter_cons, Bool.not_true, if_false]
      simpa [parsedJobs] using hrec
    · obtain ⟨j, hj⟩ := hall l (List.mem_cons_self l ls)
        (by simpa using hskip)
      simp only [parsedJobs, List.filterMap_cons, hskip, if_false, hj,
        List.filter_cons]
      simp only [parsedJobs] at hrec
      simp [hskip, hrec]

theorem read_crontab_aux_first_err (ev : List Char → Except ε α) :
    ∀ (ls : List (List Char)) (idx m : Nat) (l : List Char)
      (err : InvalidFormatError ε),
      ls[m]? = some l → skipLine l = false →
      CronJob.from_str ev (trimChars l) = some (Except.error err) →
      (∀ i li, i < m → ls[i]? = some li → skipLine li = true ∨
        ∃ j, CronJob.from_str ev (trimChars li) = some (Except.ok j)) →
      read_crontab_aux ev idx ls =
        some (Except.error (CronTabError.invalidFormat (idx + m + 1) err)) := by
  intro ls
  induction ls with
  | nil => intro idx m l err hm; simp at hm
  | cons l0 ls ih =>
    intro idx m l err hm hskip herr hbefore
    cases m with
    | zero =>
      have hl : l0 = l := by simpa using hm
      subst hl
      simp [read_crontab_aux, hskip, herr]
    | succ m =>
      have hm' : ls[m]? = some l := by simpa using hm
      have hbefore' : ∀ i li, i < m → ls[i]? = some li →
          skipLine li = true ∨
            ∃ j, CronJob.from_str ev (trimChars li) = some (Except.ok j) := by
        intro i li hi hli
        exact hbefore (i + 1) li (by omega) (by simpa using hli)
      have hrec := ih (idx + 1) m l err hm' hskip herr hbefore'
      have harith : idx + 1 + m + 1 = idx + (m + 1) + 1 := by omega
      by_cases hskip0 : skipLine l0
      · simp only [read_crontab_aux, if_pos hskip0, hrec, harith]
      · rcases hbefore 0 l0 (by omega) (by simp) with hs0 | ⟨j, hj⟩
        · exact absurd hs0 (by simpa using hskip0)
        · simp only [read_crontab_aux, if_neg hskip0, hj, hrec, harith]

theorem read_crontab_aux_mem (ev : List Char → Except ε α) :
    ∀ (ls : List (List Char)) (idx : Nat) (jobs : List (CronJob α)),
      read_crontab_aux ev idx ls = some (Except.ok jobs) →
      ∀ j ∈ jobs, ∃ l ∈ ls,
        CronJob.from_str ev (trimChars l) = some (Except.ok j) := by
  intro ls
  induction ls with
  | nil =>
    intro idx jobs h j hj
    simp only [read_crontab_aux, Option.some.injEq, Except.ok.injEq] at h
    subst h
    simp at hj
  | cons l0 ls ih =>
    intro idx jobs h j hj
    by_cases hskip0 : skipLine l0
    · rw [read_crontab_aux, if_pos hskip0] at h
      obtain ⟨l, hl, hfs⟩ := ih (idx + 1) jobs h j hj
      exact ⟨l, List.mem_cons_of_mem l0 hl, hfs⟩
    · rw [read_crontab_aux, if_neg hskip0] at h
      cases hfs : CronJob.from_str ev (trimChars l0) with
      | none => rw [hfs] at h; simp at h
      | some r =>
        cases r with
        | error e => rw [hfs] at h; simp at h
        | ok job0 =>
          rw [hfs] at h
          cases hrec : read_crontab_aux ev (idx + 1) ls with
          | none => rw [hrec] at h; simp at h
          | some r' =>
            cases r' with
            | error e' => rw [hrec] at h; simp at h
            | ok jobs' =>
              rw [hrec] at h
              simp only [Option.some.injEq, Except.ok.injEq] at h
              subst h
              rcases List.mem_cons.mp hj with hj0 | hjs
              · subst hj0
                exact ⟨l0, List.mem_cons_self l0 ls, hfs⟩
              · obtain ⟨l, hl, hfs'⟩ := ih (idx + 1) jobs' hrec j hjs
                exact ⟨l, List.mem_cons_of_mem l0 hl, hfs'⟩

theorem parseOk_iff (ev : List Char → Except ε α) (l : List Char) :
    parseOk ev l = true ↔
      ∃ j, CronJob.from_str ev (trimChars l) = some (Except.ok j) := by
  unfold parseOk
  cases hfs : CronJob.from_str ev (trimChars l) with
  | none => simp [hfs]
  | some r =>
    cases r with
    | error e => simp [hfs]
    | ok j => simp [hfs]

/-! ### Claims -/

/-- Claim C1: every line `CronJob::from_str` parses successfully is split
at the 0-indexed whitespace run number 0 when the line's first character is
`@`, and at run number 5 otherwise; the schedule text is exactly the bytes
before that run's start (and is what the evaluator accepted), the command
text is exactly the bytes from the run's end onward — preserved verbatim,
internal whitespace included — and the separator between them is a nonempty
maximal whitespace run (`RunShape`). -/
theorem c1_split_at_indexed_run (ev : List Char → Except ε α)
    (line : List Char) (job : CronJob α)
    (h : CronJob.from_str ev line = some (Except.ok job)) :
    ∃ s e spec mid,
      (find_whitespace_runs line)[if line.head? = some '@' then 0 else 5]? =
        some (s, e) ∧
      RunShape line (s, e) ∧
      takeBytes line s = some spec ∧
      dropBytes line e = some job.command ∧
      line = spec ++ mid ++ job.command ∧
      utf8Len spec = s ∧ s + utf8Len mid = e ∧ mid ≠ [] ∧
      (∀ c ∈ mid, rustIsWhitespace c = true) ∧
      ev spec = Except.ok job.schedule := by
  obtain ⟨s, e, spec, mid, h1, h2, h3, h4, h5, h6, h7, h8, _, _, h11⟩ :=
    from_str_ok_split ev line job h
  have hshape := find_whitespace_runs_sound line (s, e)
    (List.mem_iff_getElem?.mpr ⟨_, h1⟩)
  refine ⟨s, e, spec, mid, ?_, hshape, h2, h3, h4, h5, h6, h7, h8, h11⟩
  by_cases hc : line.head? = some '@'
  · simpa [split_run_index, hc] using h1
  · simpa [split_run_index, hc] using h1

/-- Witness for C1: the alias line `"@a  b c"` with the identity evaluator
splits at run 0 into schedule `"@a"` and verbatim command `"b c"`. -/
theorem c1_split_at_indexed_run_witness :
    ∃ s e spec mid,
      (find_whitespace_runs (("@a  b c").toList))[if
          (("@a  b c").toList).head? = some '@' then 0 else 5]? =
        some (s, e) ∧
      RunShape (("@a  b c").toList) (s, e) ∧
      takeBytes (("@a  b c").toList) s = some spec ∧
      dropBytes (("@a  b c").toList) e =
        some (CronJob.command ⟨("@a").toList, ("b c").toList⟩) ∧
      ("@a  b c").toList = spec ++ mid ++
        CronJob.command ⟨("@a").toList, ("b c").toList⟩ ∧
      utf8Len spec = s ∧ s + utf8Len mid = e ∧ mid ≠ [] ∧
      (∀ c ∈ mid, rustIsWhitespace c = true) ∧
      evalOk spec = Except.ok
        (CronJob.schedule ⟨("@a").toList, ("b c").toList⟩) :=
  c1_split_at_indexed_run evalOk (("@a  b c").toList)
    ⟨("@a").toList, ("b c").toList⟩ (by decide)

/-- Claim C2 is a code bug, witnessed here by evaluating the scanner: the
line `"a"` followed by U+00A0 (a two-byte whitespace character) ends in
whitespace, so per the claim the final run's end should equal the line's
length, 3 bytes.  `RunFinder::next` instead returns `last_idx + 1 = 2`,
which is neither the length nor a character boundary: slicing there fails
(in Rust: panics), as `CronJob::from_str` on `"@"` followed by U+00A0
shows. -/
theorem c2_trailing_multibyte_run_end :
    find_whitespace_runs (("a ").toList) = [(1, 2)] ∧
    utf8Len (("a ").toList) = 3 ∧
    dropBytes (("a ").toList) 2 = none ∧
    CronJob.from_str evalOk (("@ ").toList) = none := by decide

/-- Claim C3: when the line has fewer whitespace runs than the required
split index needs (none for an `@` line, five or fewer otherwise),
`CronJob::from_str` returns the format error with an empty cause — a
defined value, so no panic and no silently truncated parse. -/
theorem c3_missing_run_error (ev : List Char → Except ε α) (line : List Char)
    (h : (find_whitespace_runs line).length ≤ split_run_index line) :
    CronJob.from_str ev line = some (Except.error ⟨none⟩) := by
  have hnone : (find_whitespace_runs line)[split_run_index line]? = none :=
    List.getElem?_eq_none h
  simp only [CronJob.from_str]
  rw [brk_index, hnone]

/-- Witness for C3: `"a b c"` has two whitespace runs, fewer than the six
fields need. -/
theorem c3_missing_run_error_witness :
    (find_whitespace_runs (("a b c").toList)).length ≤
      split_run_index (("a b c").toList) ∧
    CronJob.from_str evalOk (("a b c").toList) =
      some (Except.error ⟨none⟩) :=
  ⟨by decide, c3_missing_run_error evalOk (("a b c").toList) (by decide)⟩

/-- Claim C4: the loader splits the file text on newline characters, trims
each physical line, lines that are blank or start with `#` after trimming
yield no job and no error, and when every remaining line parses the result
is exactly one job per such line, in original file order (`parsedJobs`),
with as many jobs as there are non-skipped lines. -/
theorem c4_loader_collects_valid_lines (ev : List Char → Except ε α)
    (file : List Char)
    (hall : ∀ l ∈ split_newlines file, skipLine l = false →
      parseOk ev l = true) :
    read_crontab ev file =
      some (Except.ok (parsedJobs ev (split_newlines file))) ∧
    (parsedJobs ev (split_newlines file)).length =
      ((split_newlines file).filter (fun l => !skipLine l)).length := by
  have hall' : ∀ l ∈ split_newlines file, skipLine l = false →
      ∃ j, CronJob.from_str ev (trimChars l) = some (Except.ok j) :=
    fun l hl hs => (parseOk_iff ev l).mp (hall l hl hs)
  exact ⟨read_crontab_aux_all_ok ev (split_newlines file) 0 hall',
    parsedJobs_length ev (split_newlines file) hall'⟩

/-- Witness for C4: two valid job lines interleaved with a comment and
blank lines load as exactly those two jobs, in order. -/
theorem c4_loader_collects_valid_lines_witness :
    (read_crontab evalOk (("#c\n\n@a x\n @b  y z\n").toList) =
      some (Except.ok (parsedJobs evalOk
        (split_newlines (("#c\n\n@a x\n @b  y z\n").toList)))) ∧
    (parsedJobs evalOk
        (split_newlines (("#c\n\n@a x\n @b  y z\n").toList))).length =
      ((split_newlines (("#c\n\n@a x\n @b  y z\n").toList)).filter
        (fun l => !skipLine l)).length) ∧
    parsedJobs evalOk (split_newlines (("#c\n\n@a x\n @b  y z\n").toList)) =
      [⟨("@a").toList, ("x").toList⟩, ⟨("@b").toList, ("y z").toList⟩] :=
  ⟨c4_loader_collects_valid_lines evalOk (("#c\n\n@a x\n @b  y z\n").toList)
      (by decide),
   by decide⟩

/-- Claim C5: the first malformed job line aborts the load with an error
carrying that line's 1-based physical number, counting every physical line
including blank and comment ones.  The hypotheses constrain only the lines
up to the failing one, yet they fully determine the result, so no later
line is consulted; and the error return carries no partial job list. -/
theorem c5_first_error_aborts (ev : List Char → Except ε α) (file : List Char)
    (m : Nat) (l : List Char) (err : InvalidFormatError ε)
    (hm : (split_newlines file)[m]? = some l)
    (hskip : skipLine l = false)
    (herr : CronJob.from_str ev (trimChars l) = some (Except.error err))
    (hbefore : ∀ i, i < m →
      ((split_newlines file)[i]?.all
        (fun li => skipLine li || parseOk ev li)) = true) :
    read_crontab ev file =
      some (Except.error (CronTabError.invalidFormat (m + 1) err)) := by
  have h := read_crontab_aux_first_err ev (split_newlines file) 0 m l err hm
    hskip herr (fun i li hi hli => by
      have hb := hbefore i hi
      rw [hli] at hb
      simp only [Option.all_some, Bool.or_eq_true] at hb
      rcases hb with hs | hp
      · exact Or.inl hs
      · exact Or.inr ((parseOk_iff ev li).mp hp))
  simpa [read_crontab] using h

/-- Witness for C5: physical line 3 (after a comment line and a blank
line) is malformed, and the loader reports exactly line number 3. -/
theorem c5_first_error_aborts_witness :
    read_crontab evalOk (("#a\n\nx y\n@ok z\n").toList) =
      some (Except.error (CronTabError.invalidFormat 3 ⟨none⟩)) :=
  c5_first_error_aborts evalOk (("#a\n\nx y\n@ok z\n").toList) 2
    (("x y").toList) ⟨none⟩ (by decide) (by decide) (by decide) (by decide)

/-- Claim C6: when the indexed run exists and both slices succeed, a
rejection by the external evaluator makes `CronJob::from_str` return the
format error wrapping exactly that rejection as its cause; and a `CronJob`
comes back only when the evaluator accepted the schedule text. -/
theorem c6_evaluator_result_propagates (ev : List Char → Except ε α)
    (line : List Char) :
    (∀ s e spec cmd err,
      (find_whitespace_runs line)[split_run_index line]? = some (s, e) →
      takeBytes line s = some spec → dropBytes line e = some cmd →
      ev spec = Except.error err →
      CronJob.from_str ev line = some (Except.error ⟨some err⟩)) ∧
    (∀ job, CronJob.from_str ev line = some (Except.ok job) →
      ∃ s e spec,
        (find_whitespace_runs line)[split_run_index line]? = some (s, e) ∧
        takeBytes line s = some spec ∧
        ev spec = Except.ok job.schedule) := by
  constructor
  · intro s e spec cmd err hbrk htk hdp herr
    simp only [CronJob.from_str]
    rw [brk_index, hbrk]
    simp only [htk, hdp, herr]
  · intro job hjob
    obtain ⟨s, e, spec, mid, h1, h2, _, _, _, _, _, _, _, _, h11⟩ :=
      from_str_ok_split ev line job hjob
    exact ⟨s, e, spec, h1, h2, h11⟩

/-- Witness for C6: the always-rejecting evaluator's error `7` comes back
as the cause of the format error on the line `"@a b"`. -/
theorem c6_evaluator_result_propagates_witness :
    CronJob.from_str evalReject (("@a b").toList) =
      some (Except.error ⟨some 7⟩) :=
  (c6_evaluator_result_propagates evalReject (("@a b").toList)).1 2 3
    (("@a").toList) (("b").toList) 7 (by decide) (by decide) (by decide)
    (by decide)

/-- Claim C7 counterexample: with instants in nanoseconds, take `now = 0`
and `next = 500000` (half a millisecond later).  A positive duration
remains, yet `dt.num_milliseconds()` truncates it to a zero-millisecond
sleep, so the claim "never rounded down to zero while a positive duration
remains" fails at this input. -/
theorem c7_counterexample :
    ¬ (∀ now next : Nat, now < next → 0 < dt_millis next now) := by
  intro h
  have := h 0 500000 (by decide)
  simp [dt_millis] at this

/-- Claim C7 (amended): the sleep duration is `next - now` truncated to
whole milliseconds — it never exceeds the remaining duration, is positive
whenever at least one millisecond remains, but a positive remainder under
one millisecond is truncated to a zero sleep (so the loop can fire up to
one millisecond before the scheduled instant). -/
theorem c7_sleep_truncated_to_millis (next now : Nat) (_h : now < next) :
    dt_millis next now * 1000000 ≤ next - now ∧
    (next - now < 1000000 → dt_millis next now = 0) ∧
    (1000000 ≤ next - now → 0 < dt_millis next now) := by
  unfold dt_millis
  refine ⟨Nat.div_mul_le_self _ _, ?_, ?_⟩
  · intro hlt
    exact Nat.div_eq_of_lt hlt
  · intro hge
    exact Nat.div_pos hge (by omega)

/-- Witness for the amended C7 at `next = 2500000`, `now = 0`. -/
theorem c7_sleep_truncated_to_millis_witness :
    dt_millis 2500000 0 * 1000000 ≤ 2500000 - 0 ∧
    (2500000 - 0 < 1000000 → dt_millis 2500000 0 = 0) ∧
    (1000000 ≤ 2500000 - 0 → 0 < dt_millis 2500000 0) :=
  c7_sleep_truncated_to_millis 2500000 0 (by decide)

/-- Claim C8: when the start call succeeded, one Firing step classifies the
await-completion result through `classify_wait` — no response, success,
status-code report for a structured failure with empty message, message
report for a structured failure with nonempty message, opaque report for
any other backend error — the five reports are pairwise distinct, and in
every case the next state is Idle (the loop body always falls through to
the top of the loop; there is no exit path). -/
theorem c8_wait_classification (sched : Schedule) (env : JobEnv)
    (msg e : String) (code : Int)
    (hs : env.startResult = StartResult.ok) :
    (schedule_job_step sched JobState.firing env).1 = JobState.idle ∧
    (schedule_job_step sched JobState.firing env).2 =
      some (classify_wait env.waitResult) ∧
    classify_wait WaitResult.none = JobReport.noResponse ∧
    classify_wait WaitResult.okExit = JobReport.successExit ∧
    (msg = "" → classify_wait (WaitResult.containerWaitError msg code) =
      JobReport.jobFailed code) ∧
    (msg ≠ "" → classify_wait (WaitResult.containerWaitError msg code) =
      JobReport.waitErrorMessage msg) ∧
    classify_wait (WaitResult.otherError e) = JobReport.opaqueWaitError e ∧
    [JobReport.noResponse, JobReport.successExit, JobReport.jobFailed code,
      JobReport.waitErrorMessage msg,
      JobReport.opaqueWaitError e].Pairwise (fun a b => a ≠ b) := by
  refine ⟨by simp [schedule_job_step, hs], by simp [schedule_job_step, hs],
    rfl, rfl, ?_, ?_, rfl, ?_⟩
  · intro hmsg
    subst hmsg
    rfl
  · intro hmsg
    have : msg.isEmpty = false := by
      rcases hb : msg.isEmpty with _ | _
      · rfl
      · exact absurd ((String.isEmpty_iff msg).mp hb) hmsg
    simp [classify_wait, this]
  · simp

/-- Witness for C8 with a successful start and an empty wait stream. -/
theorem c8_wait_classification_witness :
    (schedule_job_step sched0 JobState.firing env0).1 = JobState.idle ∧
    (schedule_job_step sched0 JobState.firing env0).2 =
      some (classify_wait env0.waitResult) ∧
    classify_wait env0.waitResult = JobReport.noResponse :=
  ⟨(c8_wait_classification sched0 env0 ("m") ("e") 3 rfl).1,
   (c8_wait_classification sched0 env0 ("m") ("e") 3 rfl).2.1,
   (c8_wait_classification sched0 env0 ("m") ("e") 3 rfl).2.2.1⟩

/-- Claim C9: a failed start call is reported as such and the very same
step lands in Idle — not Firing again, so no immediate retry, and a state
that always has a successor, so no termination.  The following Idle step
computes the next fire instant from that step's own current clock reading;
the Idle state carries no memory of the missed instant. -/
theorem c9_start_failure_returns_to_idle (sched : Schedule)
    (env env2 : JobEnv) (e : String)
    (h : env.startResult = StartResult.err e) :
    schedule_job_step sched JobState.firing env =
      (JobState.idle, some (JobReport.startFailed e)) ∧
    schedule_job_step sched JobState.idle env2 =
      (JobState.waiting (sched.nextAfter env2.now), none) := by
  constructor
  · simp [schedule_job_step, h]
  · rfl

/-- Witness for C9 with the failing environment `envFail`. -/
theorem c9_start_failure_returns_to_idle_witness :
    schedule_job_step sched0 JobState.firing envFail =
      (JobState.idle, some (JobReport.startFailed ("boom"))) ∧
    schedule_job_step sched0 JobState.idle env0 =
      (JobState.waiting (sched0.nextAfter env0.now), none) :=
  c9_start_failure_returns_to_idle sched0 envFail env0 ("boom") rfl

/-- Claim C10: a command returned by `CronJob::from_str` never begins with
a whitespace character (the split run is maximal), and every job the file
loader produces additionally has a command with no trailing whitespace,
because each physical line is trimmed before parsing. -/
theorem c10_command_whitespace_free (ev : List Char → Except ε α) :
    (∀ line job c, CronJob.from_str ev line = some (Except.ok job) →
      job.command.head? = some c → rustIsWhitespace c = false) ∧
    (∀ file jobs job c,
      read_crontab ev file = some (Except.ok jobs) → job ∈ jobs →
      (job.command.head? = some c → rustIsWhitespace c = false) ∧
      (job.command.getLast? = some c → rustIsWhitespace c = false)) := by
  have hhead : ∀ line job c, CronJob.from_str ev line = some (Except.ok job) →
      job.command.head? = some c → rustIsWhitespace c = false := by
    intro line job c h hc
    obtain ⟨s, e, spec, mid, _, _, _, _, _, _, _, _, _, h10, _⟩ :=
      from_str_ok_split ev line job h
    rcases h10 with hnil | ⟨c', hc', hw⟩
    · rw [hnil] at hc
      simp at hc
    · rw [hc'] at hc
      cases Option.some.inj hc
      exact hw
  refine ⟨hhead, ?_⟩
  intro file jobs job c hload hjob
  obtain ⟨l, _, hfs⟩ :=
    read_crontab_aux_mem ev (split_newlines file) 0 jobs hload job hjob
  refine ⟨hhead (trimChars l) job c hfs, ?_⟩
  intro hlast
  obtain ⟨s, e, spec, mid, _, _, h3, _, _, _, _, _, _, _, _⟩ :=
    from_str_ok_split ev (trimChars l) job hfs
  obtain ⟨k, hk, hcmdk, _⟩ := dropBytes_some (trimChars l) e job.command h3
  have htl : (trimChars l).getLast? = some c := by
    calc (trimChars l).getLast?
        = ((trimChars l).take k ++ (trimChars l).drop k).getLast? := by
          rw [List.take_append_drop]
      _ = ((trimChars l).drop k).getLast?.or
            ((trimChars l).take k).getLast? := List.getLast?_append
      _ = some c := by rw [← hcmdk, hlast]; rfl
  exact trimChars_getLast l c htl

/-- Witness for C10: the loader applied to a line whose command has inner
whitespace; the command neither begins nor ends with whitespace. -/
theorem c10_command_whitespace_free_witness :
    rustIsWhitespace 'b' = false ∧ rustIsWhitespace 'z' = false :=
  ⟨(c10_command_whitespace_free evalOk).1 (("@a  b c").toList)
      ⟨("@a").toList, ("b c").toList⟩ 'b' (by decide) (by decide),
   ((c10_command_whitespace_free evalOk).2 (("@w  y z \n").toList)
      [⟨("@w").toList, ("y z").toList⟩] ⟨("@w").toList, ("y z").toList⟩ 'z'
      (by decide) (by decide)).2 (by decide)⟩

end DockerCron
